import Mathlib

set_option maxHeartbeats 1000000

/-!
Shallow embedding of mlpack's `CVFunction` adapter
(`src/mlpack/core/hpt/cv_function_impl.hpp`).

`CVFunction` interleaves compile-time "bound" constructor arguments with the
entries of the optimizer-supplied parameter matrix (read as `parameters(P, 0)`),
invokes the cross-validation routine on the fully assembled argument list and
tracks the best (lowest) objective and the corresponding trained model.

Machine doubles are embedded as rationals; the sentinel
`std::numeric_limits<double>::max()` is the exact rational value of `DBL_MAX`.
The variadic template recursion `Evaluate`/`PutNextArg` over the indices
`BoundArgIndex`/`ParamIndex` is embedded as a fuel recursion, the fuel being
`TotalArgs - (BoundArgIndex + ParamIndex)`; the dispatch conditions
(`BoundArgIndex + ParamIndex < TotalArgs` for the recursive case and the
in-range default `BoundArgIndex < sizeof...(BoundArgs)` of `UseBoundArg`) live
in the declaring header `cv_function.hpp`, and are modelled from the spec's
resolution rule ("process slots left to right; at each slot, if the next
unconsumed bound argument's originalIndex equals the current slot index,
consume it; otherwise consume the next unread entry of the parameter vector").
-/

/-- One bound argument, as produced by `BindArg`: `index` is the static member
`BoundArgType::index` (the slot this argument occupies among all `TotalArgs`
slots) and `value` its fixed payload. -/
structure BoundArg (α : Type) where
  index : Nat
  value : α
  deriving DecidableEq

/-- The persistent state of one `CVFunction` object: the tuple `boundArgs`,
`bestObjective`, and `bestModel` (`none` models the default-constructed, not
yet assigned `MLAlgorithm bestModel` member).  The `cv` reference is passed
explicitly to `Evaluate`. -/
structure CVFunctionState (α M : Type) where
  boundArgs : List (BoundArg α)
  bestObjective : ℚ
  bestModel : Option M
  deriving DecidableEq

/-- The exact rational value of `std::numeric_limits<double>::max()`,
that is `(2 - 2 ^ (-52)) * 2 ^ 1023`. -/
def dblMax : ℚ := 2 ^ 1024 - 2 ^ 971

/-- The constructor `CVFunction::CVFunction` (lines 47-52): stores the bound
arguments and initializes `bestObjective` to
`std::numeric_limits<double>::max()`; `bestModel` is default-constructed. -/
def mkCVFunction {α M : Type} (boundArgs : List (BoundArg α)) : CVFunctionState α M :=
  { boundArgs := boundArgs, bestObjective := dblMax, bestModel := none }

/-- `UseBoundArg<BoundArgIndex, ParamIndex>::value` (lines 22-41): when
`BoundArgIndex` is in range, true iff the `BoundArgIndex`-th bound argument's
`index` equals the current slot `BoundArgIndex + ParamIndex`; out of range it
is `false`.  (The in-range dispatch `BoundArgIndex < sizeof...(BoundArgs)` is
the default template argument in the declaring header, matching the spec's
resolution rule.) -/
def useBoundArg {α : Type} (boundArgs : List (BoundArg α)) (b p : Nat) : Bool :=
  match boundArgs.get? b with
  | some a => a.index == b + p
  | none => false

/-- The mutual recursion `Evaluate<B, P>` / `PutNextArg<B, P>` (lines 64-137),
restricted to its pure argument-assembly part.  `fuel = TotalArgs - (B + P)`;
while `B + P < TotalArgs` the recursive `Evaluate` forwards to `PutNextArg`,
which appends either `std::get<B>(boundArgs).value` (advancing `B`) or
`parameters(P, 0)` (advancing `P`) to the accumulated argument pack.  The
second component logs every read `parameters(P, 0)` of the parameter matrix
as the pair `(row, column)`. -/
def putArgsAux {α : Type} [Inhabited α] (boundArgs : List (BoundArg α))
    (mat : Nat → Nat → α) :
    Nat → Nat → Nat → List α → List (Nat × Nat) → List α × List (Nat × Nat)
  | 0, _, _, args, reads => (args, reads)
  | fuel + 1, b, p, args, reads =>
    if useBoundArg boundArgs b p then
      putArgsAux boundArgs mat fuel (b + 1) p
        (args ++ [((boundArgs.get? b).map BoundArg.value).getD default]) reads
    else
      putArgsAux boundArgs mat fuel b (p + 1) (args ++ [mat p 0]) (reads ++ [(p, 0)])

/-- The full argument list with which the base case of `CVFunction::Evaluate`
(lines 88-104) invokes `cv.Evaluate(args...)`, starting from
`Evaluate<0, 0>(parameters)` (lines 58-62). -/
def assembledArgs {α : Type} [Inhabited α] (TotalArgs : Nat)
    (boundArgs : List (BoundArg α)) (mat : Nat → Nat → α) : List α :=
  (putArgsAux boundArgs mat TotalArgs 0 0 [] []).1

/-- The sequence of reads `parameters(row, column)` performed on the parameter
matrix during one call of `CVFunction::Evaluate`. -/
def paramReads {α : Type} [Inhabited α] (TotalArgs : Nat)
    (boundArgs : List (BoundArg α)) (mat : Nat → Nat → α) : List (Nat × Nat) :=
  (putArgsAux boundArgs mat TotalArgs 0 0 [] []).2

/-- The argument lists passed to `cv.Evaluate` during one call of
`CVFunction::Evaluate`: the recursion reaches its base case (lines 88-104)
exactly once, so exactly one invocation occurs, with the fully assembled list. -/
def cvCallLog {α : Type} [Inhabited α] (TotalArgs : Nat)
    (boundArgs : List (BoundArg α)) (mat : Nat → Nat → α) : List (List α) :=
  [assembledArgs TotalArgs boundArgs mat]

/-- The best-result update of the base case of `CVFunction::Evaluate`
(lines 96-101): replace `bestObjective`/`bestModel` iff
`bestObjective > objective || bestObjective == std::numeric_limits<double>::max()`. -/
def updateBest {α M : Type} (st : CVFunctionState α M) (objective : ℚ) (model : M) :
    CVFunctionState α M :=
  if st.bestObjective > objective ∨ st.bestObjective = dblMax then
    { st with bestObjective := objective, bestModel := some model }
  else st

/-- One call of `double CVFunction::Evaluate(const arma::mat& parameters)`:
assemble the argument list, invoke `cv.Evaluate` on it once and, on success,
apply the best-result update; a failure of `cv.Evaluate` propagates unchanged
(there is no catch/retry in the source) and leaves the state untouched. -/
def Evaluate {α M ε : Type} [Inhabited α] (cvEval : List α → Except ε (ℚ × M))
    (TotalArgs : Nat) (mat : Nat → Nat → α) (st : CVFunctionState α M) :
    Except ε ℚ × CVFunctionState α M :=
  match cvEval (assembledArgs TotalArgs st.boundArgs mat) with
  | Except.error e => (Except.error e, st)
  | Except.ok (objective, model) => (Except.ok objective, updateBest st objective model)

/-- A sequence of completed evaluations, the i-th returning objective
`(evals.get i).1` and trained model `(evals.get i).2`: each applies the
best-result update of `CVFunction::Evaluate` (lines 96-101). -/
def runEvals {α M : Type} (evals : List (ℚ × M)) (st : CVFunctionState α M) :
    CVFunctionState α M :=
  evals.foldl (fun s e => updateBest s e.1 e.2) st

/-- Modelled from the spec claim (refinement side, not from the source): slot
`i` of the assembled list holds the bound value whose `originalIndex` is `i`
when `i` is a bound index, and otherwise the parameter-vector entry at `i`'s
rank among the non-bound slots. -/
def specSlot {α : Type} [Inhabited α] (boundArgs : List (BoundArg α))
    (params : Nat → α) (i : Nat) : α :=
  match boundArgs.find? (fun a => a.index == i) with
  | some a => a.value
  | none => params (i - (boundArgs.filter (fun a => a.index < i)).length)

/-- The spec's invariant on the bound-argument set: `originalIndex` values are
strictly increasing and all lie within `[0, TotalArgs)`. -/
def ValidBoundArgs {α : Type} (TotalArgs : Nat) (boundArgs : List (BoundArg α)) : Prop :=
  List.Chain' (· < ·) (boundArgs.map BoundArg.index) ∧
  ∀ a ∈ boundArgs, a.index < TotalArgs

/-- Executable check that a list of naturals is strictly increasing. -/
def chainLtB : List Nat → Bool
  | [] => true
  | [_] => true
  | a :: b :: t => decide (a < b) && chainLtB (b :: t)

theorem chainLtB_iff : ∀ l : List Nat, chainLtB l = true ↔ List.Chain' (· < ·) l
  | [] => by simp [chainLtB]
  | [_] => by simp [chainLtB]
  | a :: b :: t => by
    simp [chainLtB, List.chain'_cons, chainLtB_iff (b :: t), and_comm]

instance {α : Type} (TotalArgs : Nat) (boundArgs : List (BoundArg α)) :
    Decidable (ValidBoundArgs TotalArgs boundArgs) :=
  decidable_of_iff
    (chainLtB (boundArgs.map BoundArg.index) = true ∧
      boundArgs.all (fun a => decide (a.index < TotalArgs)) = true)
    (by simp [ValidBoundArgs, chainLtB_iff, List.all_eq_true])

/-! ### Best-result tracker -/

theorem updateBest_pos {α M : Type} (st : CVFunctionState α M) (objective : ℚ) (model : M)
    (h : st.bestObjective > objective ∨ st.bestObjective = dblMax) :
    updateBest st objective model =
      { st with bestObjective := objective, bestModel := some model } := by
  unfold updateBest
  rw [if_pos h]

theorem updateBest_neg {α M : Type} (st : CVFunctionState α M) (objective : ℚ) (model : M)
    (h1 : ¬ st.bestObjective > objective) (h2 : st.bestObjective ≠ dblMax) :
    updateBest st objective model = st := by
  unfold updateBest
  rw [if_neg (not_or.mpr ⟨h1, h2⟩)]

/-- Core invariant of the tracker once a genuine (below-sentinel) best is
stored: the best objective only decreases, stays below the sentinel, is a
lower bound of all scores seen, and either nothing changed or the tracked
pair comes from the first strict improvement among the processed
evaluations. -/
theorem runEvals_lt_sentinel {α M : Type} (evals : List (ℚ × M)) :
    ∀ st : CVFunctionState α M, st.bestObjective < dblMax →
    (runEvals evals st).bestObjective < dblMax ∧
    (runEvals evals st).bestObjective ≤ st.bestObjective ∧
    (∀ e ∈ evals, (runEvals evals st).bestObjective ≤ e.1) ∧
    ((runEvals evals st = st ∧ ∀ e ∈ evals, st.bestObjective ≤ e.1) ∨
      ∃ i, ∃ hi : i < evals.length,
        (runEvals evals st).bestObjective = (evals.get ⟨i, hi⟩).1 ∧
        (runEvals evals st).bestModel = some (evals.get ⟨i, hi⟩).2 ∧
        (evals.get ⟨i, hi⟩).1 < st.bestObjective ∧
        ∀ j, ∀ hj : j < evals.length, j < i →
          (runEvals evals st).bestObjective < (evals.get ⟨j, hj⟩).1) := by
  induction evals with
  | nil =>
    intro st h
    exact ⟨h, le_refl _, by simp [runEvals], Or.inl ⟨rfl, by simp⟩⟩
  | cons e rest ih =>
    intro st h
    by_cases hlt : st.bestObjective > e.1
    · have hrun : runEvals (e :: rest) st =
          runEvals rest { st with bestObjective := e.1, bestModel := some e.2 } := by
        show runEvals rest (updateBest st e.1 e.2) = _
        rw [updateBest_pos st e.1 e.2 (Or.inl hlt)]
      obtain ⟨ih1, ih2, ih3, ih4⟩ :=
        ih { st with bestObjective := e.1, bestModel := some e.2 } (lt_trans hlt h)
      rw [hrun]
      refine ⟨ih1, le_trans ih2 (le_of_lt hlt), ?_, ?_⟩
      · intro e' he'
        rcases List.mem_cons.mp he' with rfl | hmem
        · exact ih2
        · exact ih3 e' hmem
      · rcases ih4 with ⟨heq, _⟩ | ⟨i, hi, h1, h2, h3, h4⟩
        · refine Or.inr ⟨0, Nat.succ_pos _, ?_, ?_, hlt, ?_⟩
          · rw [heq]; rfl
          · rw [heq]; rfl
          · intro j hj hj0
            exact absurd hj0 (Nat.not_lt_zero j)
        · refine Or.inr ⟨i + 1, Nat.succ_lt_succ hi, h1, h2, lt_trans h3 hlt, ?_⟩
          intro j hj hji
          cases j with
          | zero => rw [h1]; exact h3
          | succ j' => exact h4 j' (Nat.lt_of_succ_lt_succ hj) (Nat.lt_of_succ_lt_succ hji)
    · have hrun : runEvals (e :: rest) st = runEvals rest st := by
        show runEvals rest (updateBest st e.1 e.2) = _
        rw [updateBest_neg st e.1 e.2 hlt (ne_of_lt h)]
      have hle : st.bestObjective ≤ e.1 := le_of_not_lt hlt
      obtain ⟨ih1, ih2, ih3, ih4⟩ := ih st h
      rw [hrun]
      refine ⟨ih1, ih2, ?_, ?_⟩
      · intro e' he'
        rcases List.mem_cons.mp he' with rfl | hmem
        · exact le_trans ih2 hle
        · exact ih3 e' hmem
      · rcases ih4 with ⟨heq, hall⟩ | ⟨i, hi, h1, h2, h3, h4⟩
        · refine Or.inl ⟨heq, ?_⟩
          intro e' he'
          rcases List.mem_cons.mp he' with rfl | hmem
          · exact hle
          · exact hall e' hmem
        · refine Or.inr ⟨i + 1, Nat.succ_lt_succ hi, h1, h2, h3, ?_⟩
          intro j hj hji
          cases j with
          | zero => rw [h1]; exact lt_of_lt_of_le h3 hle
          | succ j' => exact h4 j' (Nat.lt_of_succ_lt_succ hj) (Nat.lt_of_succ_lt_succ hji)

theorem lt_dblMax_of_lt_million {q : ℚ} (h : q < 1000000) : q < dblMax :=
  lt_trans h (by norm_num [dblMax])

/-- C4: before any evaluation the stored best score equals the sentinel
`std::numeric_limits<double>::max()` and no model is stored; after exactly one
completed evaluation returning objective `s` and model `m`, the stored best
score is `s` and the stored best model is `m`, for every value of `s`
(including arbitrarily large scores). -/
theorem c4_first_call_initialization {α M : Type} (bas : List (BoundArg α)) :
    (mkCVFunction bas : CVFunctionState α M).bestObjective = dblMax ∧
    (mkCVFunction bas : CVFunctionState α M).bestModel = none ∧
    ∀ (s : ℚ) (m : M), runEvals [(s, m)] (mkCVFunction bas) =
      { boundArgs := bas, bestObjective := s, bestModel := some m } := by
  refine ⟨rfl, rfl, fun s m => ?_⟩
  show updateBest (mkCVFunction bas) s m = _
  exact (updateBest_pos _ _ _ (Or.inr rfl)).trans rfl

/-- C9: whenever the stored best score equals the maximum representable double
at the start of an evaluation (initial sentinel, or a previous evaluation
scored exactly that value), the evaluation unconditionally replaces the stored
best score and best model with this call's objective and model, for every
objective. -/
theorem c9_sentinel_forces_replacement {α M : Type} (st : CVFunctionState α M)
    (h : st.bestObjective = dblMax) (s : ℚ) (m : M) :
    updateBest st s m = { st with bestObjective := s, bestModel := some m } :=
  updateBest_pos st s m (Or.inr h)

/-- Witness for C9 at a concrete state and score. -/
theorem c9_witness :
    updateBest (mkCVFunction [] : CVFunctionState Nat Nat) 3 7 =
      { boundArgs := [], bestObjective := 3, bestModel := some 7 } :=
  (c9_sentinel_forces_replacement (mkCVFunction []) rfl 3 7).trans rfl

/-- Counterexample to C3 as stated: after one evaluation scoring exactly
`DBL_MAX` (model 1), a second evaluation whose score equals the currently
stored best score (`DBL_MAX`) does replace the stored best model (with 2). -/
theorem c3_counterexample :
    (runEvals [(dblMax, 1)] (mkCVFunction ([] : List (BoundArg Nat)))).bestModel = some 1 ∧
    (updateBest (runEvals [(dblMax, 1)] (mkCVFunction ([] : List (BoundArg Nat))))
      (runEvals [(dblMax, 1)] (mkCVFunction ([] : List (BoundArg Nat)))).bestObjective
      2).bestModel = some 2 := by
  have h1 : runEvals [(dblMax, (1 : Nat))] (mkCVFunction ([] : List (BoundArg Nat))) =
      { boundArgs := [], bestObjective := dblMax, bestModel := some 1 } := by
    show updateBest (mkCVFunction []) dblMax 1 = _
    exact (updateBest_pos _ _ _ (Or.inr rfl)).trans rfl
  rw [h1]
  exact ⟨rfl, congrArg CVFunctionState.bestModel (updateBest_pos _ _ _ (Or.inr rfl))⟩

/-- C3 (amended: the stored best score is strictly below the `DBL_MAX`
sentinel): an evaluation whose score is exactly equal to the currently stored
best score replaces neither the stored best score nor the stored best model. -/
theorem c3_tie_keeps_first_model {α M : Type} (st : CVFunctionState α M)
    (h : st.bestObjective < dblMax) (m : M) :
    updateBest st st.bestObjective m = st :=
  updateBest_neg st st.bestObjective m (lt_irrefl _) (ne_of_lt h)

/-- Witness for the amended C3 at a concrete state. -/
theorem c3_witness :
    (5 : ℚ) < dblMax ∧
    updateBest ({ boundArgs := [], bestObjective := 5, bestModel := some 1 } :
        CVFunctionState Nat Nat) 5 2 =
      { boundArgs := [], bestObjective := 5, bestModel := some 1 } :=
  ⟨lt_dblMax_of_lt_million (by norm_num),
    c3_tie_keeps_first_model _ (lt_dblMax_of_lt_million (by norm_num)) 2⟩

/-- Counterexample to C2 as stated: for the evaluation sequence with scores
`DBL_MAX, DBL_MAX` and models `1, 2`, the minimum score `DBL_MAX` is first
achieved by the first evaluation (model 1), yet the tracked best model is the
model of the second evaluation. -/
theorem c2_counterexample :
    (runEvals [(dblMax, 1), (dblMax, 2)]
      (mkCVFunction ([] : List (BoundArg Nat)))).bestObjective = dblMax ∧
    (runEvals [(dblMax, 1), (dblMax, 2)]
      (mkCVFunction ([] : List (BoundArg Nat)))).bestModel = some 2 ∧
    ¬ (runEvals [(dblMax, 1), (dblMax, 2)]
      (mkCVFunction ([] : List (BoundArg Nat)))).bestModel = some 1 := by
  have h2 : runEvals [(dblMax, (1 : Nat)), (dblMax, 2)]
      (mkCVFunction ([] : List (BoundArg Nat))) =
      { boundArgs := [], bestObjective := dblMax, bestModel := some 2 } := by
    show updateBest (updateBest (mkCVFunction []) dblMax 1) dblMax 2 = _
    rw [updateBest_pos (mkCVFunction ([] : List (BoundArg Nat))) dblMax 1 (Or.inr rfl)]
    exact (updateBest_pos _ dblMax 2 (Or.inr rfl)).trans rfl
  rw [h2]
  exact ⟨rfl, rfl, by simp⟩

/-- Starting from a state whose stored best equals the `DBL_MAX` sentinel,
a nonempty run of evaluations with scores at most `DBL_MAX` ends with the
tracked best score a lower bound of all scores that is attained by one of
them — i.e. the best score equals the minimum, even when scores tie with the
sentinel. -/
theorem runEvals_from_sentinel {α M : Type} (evals : List (ℚ × M)) :
    ∀ st : CVFunctionState α M, st.bestObjective = dblMax →
    (∀ e ∈ evals, e.1 ≤ dblMax) → evals ≠ [] →
    (∀ e ∈ evals, (runEvals evals st).bestObjective ≤ e.1) ∧
    ∃ i, ∃ hi : i < evals.length,
      (runEvals evals st).bestObjective = (evals.get ⟨i, hi⟩).1 := by
  induction evals with
  | nil =>
    intro st _ _ hne
    exact absurd rfl hne
  | cons e rest ih =>
    intro st hst hle _
    have hrun : runEvals (e :: rest) st =
        runEvals rest { st with bestObjective := e.1, bestModel := some e.2 } :=
      congrArg (runEvals rest) (updateBest_pos st e.1 e.2 (Or.inr hst))
    rw [hrun]
    by_cases hcase : e.1 < dblMax
    · obtain ⟨_ih1, ih2, ih3, ih4⟩ := runEvals_lt_sentinel rest
        { st with bestObjective := e.1, bestModel := some e.2 } hcase
      constructor
      · intro e' he'
        rcases List.mem_cons.mp he' with rfl | hmem
        · exact ih2
        · exact ih3 e' hmem
      · rcases ih4 with ⟨heq, _⟩ | ⟨i, hi, h1, _h2, _h3, _h4⟩
        · refine ⟨0, Nat.succ_pos _, ?_⟩
          rw [heq]
          rfl
        · exact ⟨i + 1, Nat.succ_lt_succ hi, h1⟩
    · have he1 : e.1 = dblMax :=
        le_antisymm (hle e (List.mem_cons_self e rest)) (le_of_not_lt hcase)
      cases rest with
      | nil =>
        refine ⟨?_, 0, Nat.succ_pos _, rfl⟩
        intro e' he'
        rcases List.mem_cons.mp he' with rfl | hmem
        · exact le_refl _
        · exact absurd hmem (List.not_mem_nil e')
      | cons e2 rest2 =>
        have hst' : ({ st with bestObjective := e.1, bestModel := some e.2 } :
            CVFunctionState α M).bestObjective = dblMax := he1
        obtain ⟨ihA, i', hi', heq⟩ :=
          ih { st with bestObjective := e.1, bestModel := some e.2 } hst'
            (fun e' he' => hle e' (List.mem_cons_of_mem e he')) (by simp)
        constructor
        · intro e' he'
          rcases List.mem_cons.mp he' with rfl | hmem
          · have hsc := hle _ (List.mem_cons_of_mem e' (List.get_mem (e2 :: rest2) i' hi'))
            rw [heq, he1]
            exact hsc
          · exact ihA e' hmem
        · exact ⟨i' + 1, Nat.succ_lt_succ hi', heq⟩

/-- C2 (amended): after a nonempty sequence of completed evaluations whose
scores are at most `DBL_MAX` — i.e. any sequence of finite double scores —
the tracked best score equals `min(s1, ..., sn)`; if moreover every score is
strictly below the `DBL_MAX` sentinel, the tracked best model is the model
produced by the earliest evaluation whose score equals that minimum (with
ties at exactly `DBL_MAX`, the sentinel test also fires on later evaluations
and a later tying model is kept instead, as the counterexample shows). -/
theorem c2_min_and_first_argmin {α M : Type} (bas : List (BoundArg α))
    (evals : List (ℚ × M)) (hne : evals ≠ [])
    (hle : ∀ e ∈ evals, e.1 ≤ dblMax) :
    ((∀ e ∈ evals, (runEvals evals (mkCVFunction bas)).bestObjective ≤ e.1) ∧
      ∃ i, ∃ hi : i < evals.length,
        (runEvals evals (mkCVFunction bas)).bestObjective = (evals.get ⟨i, hi⟩).1) ∧
    ((∀ e ∈ evals, e.1 < dblMax) →
      ∃ i, ∃ hi : i < evals.length,
        (runEvals evals (mkCVFunction bas)).bestObjective = (evals.get ⟨i, hi⟩).1 ∧
        (runEvals evals (mkCVFunction bas)).bestModel = some (evals.get ⟨i, hi⟩).2 ∧
        ∀ j, ∀ hj : j < evals.length, j < i →
          (runEvals evals (mkCVFunction bas)).bestObjective < (evals.get ⟨j, hj⟩).1) := by
  constructor
  · exact runEvals_from_sentinel evals (mkCVFunction bas) rfl hle hne
  · intro hlt
    cases evals with
    | nil => exact absurd rfl hne
    | cons e rest =>
      have hrun : runEvals (e :: rest) (mkCVFunction bas) =
          runEvals rest ({ boundArgs := bas, bestObjective := e.1, bestModel := some e.2 } :
            CVFunctionState α M) :=
        congrArg (runEvals rest)
          ((updateBest_pos (mkCVFunction bas) e.1 e.2 (Or.inr rfl)).trans rfl)
      obtain ⟨_ih1, _ih2, _ih3, ih4⟩ :=
        runEvals_lt_sentinel rest
          ({ boundArgs := bas, bestObjective := e.1, bestModel := some e.2 } :
            CVFunctionState α M)
          (hlt e (List.mem_cons_self e rest))
      rw [hrun]
      rcases ih4 with ⟨heq, _⟩ | ⟨i, hi, h1, h2, h3, h4⟩
      · refine ⟨0, Nat.succ_pos _, ?_, ?_, ?_⟩
        · rw [heq]; rfl
        · rw [heq]; rfl
        · intro j hj hj0
          exact absurd hj0 (Nat.not_lt_zero j)
      · refine ⟨i + 1, Nat.succ_lt_succ hi, h1, h2, ?_⟩
        intro j hj hji
        cases j with
        | zero => rw [h1]; exact h3
        | succ j' => exact h4 j' (Nat.lt_of_succ_lt_succ hj) (Nat.lt_of_succ_lt_succ hji)

/-- Witness for the amended C2 on the concrete sequence of scores
`10, 7, 9` with models `1, 2, 3`: both hypotheses hold, the best score
equals the minimum, and the strictly-below-sentinel clause gives the
earliest-minimum model. -/
theorem c2_witness :
    ([((10 : ℚ), (1 : Nat)), (7, 2), (9, 3)] ≠ ([] : List (ℚ × Nat))) ∧
    (∀ e ∈ [((10 : ℚ), (1 : Nat)), (7, 2), (9, 3)], e.1 ≤ dblMax) ∧
    (∀ e ∈ [((10 : ℚ), (1 : Nat)), (7, 2), (9, 3)], e.1 < dblMax) ∧
    ((∀ e ∈ [((10 : ℚ), (1 : Nat)), (7, 2), (9, 3)],
        (runEvals [((10 : ℚ), (1 : Nat)), (7, 2), (9, 3)]
          (mkCVFunction ([] : List (BoundArg Nat)))).bestObjective ≤ e.1) ∧
      ∃ i, ∃ hi : i < [((10 : ℚ), (1 : Nat)), (7, 2), (9, 3)].length,
        (runEvals [((10 : ℚ), (1 : Nat)), (7, 2), (9, 3)]
          (mkCVFunction ([] : List (BoundArg Nat)))).bestObjective =
          ([((10 : ℚ), (1 : Nat)), (7, 2), (9, 3)].get ⟨i, hi⟩).1) ∧
    (∃ i, ∃ hi : i < [((10 : ℚ), (1 : Nat)), (7, 2), (9, 3)].length,
      (runEvals [((10 : ℚ), (1 : Nat)), (7, 2), (9, 3)]
        (mkCVFunction ([] : List (BoundArg Nat)))).bestObjective =
        ([((10 : ℚ), (1 : Nat)), (7, 2), (9, 3)].get ⟨i, hi⟩).1 ∧
      (runEvals [((10 : ℚ), (1 : Nat)), (7, 2), (9, 3)]
        (mkCVFunction ([] : List (BoundArg Nat)))).bestModel =
        some ([((10 : ℚ), (1 : Nat)), (7, 2), (9, 3)].get ⟨i, hi⟩).2 ∧
      ∀ j, ∀ hj : j < [((10 : ℚ), (1 : Nat)), (7, 2), (9, 3)].length, j < i →
        (runEvals [((10 : ℚ), (1 : Nat)), (7, 2), (9, 3)]
          (mkCVFunction ([] : List (BoundArg Nat)))).bestObjective <
          ([((10 : ℚ), (1 : Nat)), (7, 2), (9, 3)].get ⟨j, hj⟩).1) := by
  have hlt : ∀ e ∈ [((10 : ℚ), (1 : Nat)), (7, 2), (9, 3)], e.1 < dblMax := by
    intro e he
    simp only [List.mem_cons, List.not_mem_nil, or_false] at he
    rcases he with rfl | rfl | rfl <;> exact lt_dblMax_of_lt_million (by norm_num)
  have hle : ∀ e ∈ [((10 : ℚ), (1 : Nat)), (7, 2), (9, 3)], e.1 ≤ dblMax :=
    fun e he => le_of_lt (hlt e he)
  have h := c2_min_and_first_argmin ([] : List (BoundArg Nat))
    [((10 : ℚ), (1 : Nat)), (7, 2), (9, 3)] (by simp) hle
  exact ⟨by simp, hle, hlt, h.1, h.2 hlt⟩

/-- C5: when the cross-validation routine fails on the assembled argument
list, `CVFunction::Evaluate` propagates that same failure unchanged (there is
no catch, retry, or substitute score in the source), and the stored best
score and best model are left unchanged. -/
theorem c5_failure_propagates {α M ε : Type} [Inhabited α]
    (cvEval : List α → Except ε (ℚ × M)) (TotalArgs : Nat) (mat : Nat → Nat → α)
    (st : CVFunctionState α M) (e : ε)
    (h : cvEval (assembledArgs TotalArgs st.boundArgs mat) = Except.error e) :
    Evaluate cvEval TotalArgs mat st = (Except.error e, st) := by
  unfold Evaluate
  rw [h]

/-- Witness for C5 with a concretely failing cross-validation routine. -/
theorem c5_witness :
    Evaluate (fun _ => Except.error () : List Nat → Except Unit (ℚ × Nat)) 1
        (fun _ _ => 0) (mkCVFunction []) =
      (Except.error (), mkCVFunction []) :=
  c5_failure_propagates _ 1 _ (mkCVFunction []) () rfl

/-- C8: every call of `CVFunction::Evaluate` leaves the stored bound-argument
set unchanged (and the parameter matrix is a read-only input of the call): of
the adapter's state, only `bestObjective` and `bestModel` may be modified. -/
theorem c8_evaluate_preserves_boundArgs {α M ε : Type} [Inhabited α]
    (cvEval : List α → Except ε (ℚ × M)) (TotalArgs : Nat) (mat : Nat → Nat → α)
    (st : CVFunctionState α M) :
    (Evaluate cvEval TotalArgs mat st).2.boundArgs = st.boundArgs := by
  unfold Evaluate
  cases cvEval (assembledArgs TotalArgs st.boundArgs mat) with
  | error e => rfl
  | ok v =>
    cases v with
    | mk objective model =>
      show (updateBest st objective model).boundArgs = st.boundArgs
      unfold updateBest
      split
      · rfl
      · rfl

/-- C6: with `TotalArgs = 0`, no bound arguments and an empty parameter
vector, `CVFunction::Evaluate` invokes the cross-validation routine exactly
once, with the empty argument list, and returns that single call's score. -/
theorem c6_zero_total_args {α M ε : Type} [Inhabited α] (mat : Nat → Nat → α)
    (cvEval : List α → Except ε (ℚ × M)) (s : ℚ) (m : M)
    (h : cvEval [] = Except.ok (s, m)) :
    cvCallLog 0 ([] : List (BoundArg α)) mat = [[]] ∧
    Evaluate cvEval 0 mat (mkCVFunction []) =
      (Except.ok s, { boundArgs := [], bestObjective := s, bestModel := some m }) := by
  refine ⟨rfl, ?_⟩
  unfold Evaluate
  rw [show cvEval (assembledArgs 0 (mkCVFunction ([] : List (BoundArg α)) :
        CVFunctionState α M).boundArgs mat) = Except.ok (s, m) from h]
  exact congrArg (Prod.mk (Except.ok s))
    ((updateBest_pos (mkCVFunction []) s m (Or.inr rfl)).trans rfl)

/-- Witness for C6 with a concrete cross-validation routine. -/
theorem c6_witness :
    cvCallLog 0 ([] : List (BoundArg Nat)) (fun _ _ => 0) = [[]] ∧
    Evaluate (fun _ => Except.ok ((4 : ℚ), (9 : Nat)) : List Nat → Except Unit (ℚ × Nat)) 0
        (fun _ _ => 0) (mkCVFunction []) =
      (Except.ok 4, { boundArgs := [], bestObjective := 4, bestModel := some 9 }) :=
  c6_zero_total_args _ _ 4 9 rfl

/-! ### Argument assembly -/

theorem putArgsAux_fst_length {α : Type} [Inhabited α] (bas : List (BoundArg α))
    (mat : Nat → Nat → α) :
    ∀ (fuel b p : Nat) (args : List α) (reads : List (Nat × Nat)),
    (putArgsAux bas mat fuel b p args reads).1.length = args.length + fuel := by
  intro fuel
  induction fuel with
  | zero => intro b p args reads; rfl
  | succ n ih =>
    intro b p args reads
    simp only [putArgsAux]
    by_cases h : useBoundArg bas b p = true
    · rw [if_pos h, ih]
      simp only [List.length_append, List.length_singleton]
      omega
    · rw [if_neg h, ih]
      simp only [List.length_append, List.length_singleton]
      omega

theorem find_at_pos {α : Type} (l : List (BoundArg α)) (s : Nat) :
    ∀ (b : Nat) (hb : b < l.length),
    (l.get ⟨b, hb⟩).index = s →
    (∀ j (hj : j < l.length), j < b → (l.get ⟨j, hj⟩).index ≠ s) →
    l.find? (fun a => a.index == s) = some (l.get ⟨b, hb⟩) := by
  induction l with
  | nil => intro b hb; exact absurd hb (Nat.not_lt_zero b)
  | cons x t ih =>
    intro b hb hidx hbefore
    cases b with
    | zero => exact List.find?_cons_of_pos t (by simpa using hidx)
    | succ b' =>
      have hx : x.index ≠ s := hbefore 0 (Nat.succ_pos _) (Nat.succ_pos b')
      rw [List.find?_cons_of_neg t (by simp [hx])]
      exact ih b' (Nat.lt_of_succ_lt_succ hb) hidx
        (fun j hj hjb => hbefore (j + 1) (Nat.succ_lt_succ hj) (Nat.succ_lt_succ hjb))

theorem find_index_none {α : Type} (l : List (BoundArg α)) (s : Nat)
    (h : ∀ j (hj : j < l.length), (l.get ⟨j, hj⟩).index ≠ s) :
    l.find? (fun a => a.index == s) = none := by
  rw [List.find?_eq_none]
  intro a ha
  obtain ⟨⟨j, hj⟩, rfl⟩ := List.mem_iff_get.mp ha
  simpa using h j hj

theorem filter_length_split {α : Type} (P : α → Bool) :
    ∀ (l : List α) (n : Nat), n ≤ l.length →
    (∀ j (hj : j < l.length), j < n → P (l.get ⟨j, hj⟩) = true) →
    (∀ j (hj : j < l.length), n ≤ j → P (l.get ⟨j, hj⟩) = false) →
    (l.filter P).length = n := by
  intro l
  induction l with
  | nil =>
    intro n hn _ _
    simp only [List.length_nil] at hn
    simp only [List.filter_nil, List.length_nil]
    omega
  | cons x t ih =>
    intro n hn h1 h2
    cases n with
    | zero =>
      have hx : P x = false := h2 0 (Nat.succ_pos _) (Nat.le_refl 0)
      rw [List.filter_cons_of_neg (by simp [hx])]
      exact ih 0 (Nat.zero_le _)
        (fun j hj hj0 => absurd hj0 (Nat.not_lt_zero j))
        (fun j hj _ => h2 (j + 1) (Nat.succ_lt_succ hj) (Nat.zero_le _))
    | succ n' =>
      have hx : P x = true := h1 0 (Nat.succ_pos _) (Nat.succ_pos n')
      rw [List.filter_cons_of_pos hx]
      simp only [List.length_cons]
      rw [ih n' (Nat.le_of_succ_le_succ hn)
        (fun j hj hjn => h1 (j + 1) (Nat.succ_lt_succ hj) (Nat.succ_lt_succ hjn))
        (fun j hj hnj => h2 (j + 1) (Nat.succ_lt_succ hj) (Nat.succ_le_succ hnj))]

theorem mono_index_gap {α : Type} (l : List (BoundArg α))
    (hmono : ∀ i j (hi : i < l.length) (hj : j < l.length), i < j →
      (l.get ⟨i, hi⟩).index < (l.get ⟨j, hj⟩).index)
    (b : Nat) :
    ∀ (d : Nat) (h : b + d < l.length) (hb : b < l.length),
    (l.get ⟨b, hb⟩).index + d ≤ (l.get ⟨b + d, h⟩).index := by
  intro d
  induction d with
  | zero => intro h hb; exact Nat.le_refl _
  | succ d' ihd =>
    intro h hb
    have h' : b + d' < l.length := Nat.lt_of_succ_lt h
    have step := hmono (b + d') (b + d' + 1) h' h (Nat.lt_succ_self _)
    have ihd' := ihd h' hb
    show (l.get ⟨b, hb⟩).index + (d' + 1) ≤ (l.get ⟨b + d' + 1, h⟩).index
    omega

theorem getD_map_range {α : Type} [Inhabited α] (f : Nat → α) (T i : Nat) (h : i < T) :
    ((List.range T).map f).getD i default = f i := by
  simp [List.getD, List.getElem?_map, List.getElem?_range, h]

theorem valid_mono {α : Type} (bas : List (BoundArg α))
    (h : List.Chain' (· < ·) (bas.map BoundArg.index)) :
    ∀ i j (hi : i < bas.length) (hj : j < bas.length), i < j →
      (bas.get ⟨i, hi⟩).index < (bas.get ⟨j, hj⟩).index := by
  have hp : List.Pairwise (· < ·) (bas.map BoundArg.index) :=
    List.chain'_iff_pairwise.mp h
  intro i j hi hj hij
  have := (List.pairwise_iff_get.mp hp) ⟨i, by simpa using hi⟩ ⟨j, by simpa using hj⟩ hij
  simpa [List.get_eq_getElem, List.getElem_map] using this


theorem useBoundArg_true_iff {α : Type} (bas : List (BoundArg α)) (b p : Nat)
    (hb : b < bas.length) :
    useBoundArg bas b p = true ↔ (bas.get ⟨b, hb⟩).index = b + p := by
  unfold useBoundArg
  rw [List.get?_eq_get hb]
  simp [beq_iff_eq]

theorem useBoundArg_false_of_ge {α : Type} (bas : List (BoundArg α)) (b p : Nat)
    (hb : bas.length ≤ b) : useBoundArg bas b p = false := by
  unfold useBoundArg
  rw [List.get?_eq_none.mpr hb]

/-- Characterization of the `Evaluate`/`PutNextArg` walk from an arbitrary
state `(b, p)` of the cursors, under the invariant that the bound arguments
consumed so far are exactly those with `index < b + p`: the walk appends
`specSlot` of each remaining slot to `args`, and logs the remaining parameter
reads, which are the consecutive rows `p, p + 1, ...` of column 0. -/
theorem putArgsAux_eq {α : Type} [Inhabited α] (bas : List (BoundArg α))
    (mat : Nat → Nat → α)
    (hmono : ∀ i j (hi : i < bas.length) (hj : j < bas.length), i < j →
      (bas.get ⟨i, hi⟩).index < (bas.get ⟨j, hj⟩).index) :
    ∀ (fuel b p : Nat) (args : List α) (reads : List (Nat × Nat)),
    b ≤ bas.length →
    (∀ j (hj : j < bas.length), ((bas.get ⟨j, hj⟩).index < b + p ↔ j < b)) →
    (∀ j (hj : j < bas.length), (bas.get ⟨j, hj⟩).index < b + p + fuel) →
    putArgsAux bas mat fuel b p args reads =
      (args ++ (List.range fuel).map (fun k => specSlot bas (fun q => mat q 0) (b + p + k)),
       reads ++ (List.range (fuel - (bas.length - b))).map (fun j => (p + j, 0))) := by
  intro fuel
  induction fuel with
  | zero =>
    intro b p args reads _ _ _
    simp [putArgsAux]
  | succ n ih =>
    intro b p args reads hb hinv hrange
    simp only [putArgsAux]
    by_cases h : useBoundArg bas b p = true
    · -- bound-argument step
      have hb' : b < bas.length := by
        by_contra hc
        rw [useBoundArg_false_of_ge bas b p (Nat.le_of_not_lt hc)] at h
        exact Bool.false_ne_true h
      have hidx : (bas.get ⟨b, hb'⟩).index = b + p :=
        (useBoundArg_true_iff bas b p hb').mp h
      rw [if_pos h]
      have hval : ((bas.get? b).map BoundArg.value).getD default =
          (bas.get ⟨b, hb'⟩).value := by
        rw [List.get?_eq_get hb']
        rfl
      rw [hval]
      have hfind : bas.find? (fun a => a.index == b + p) = some (bas.get ⟨b, hb'⟩) :=
        find_at_pos bas (b + p) b hb' hidx
          (fun j hj hjb => by
            have := (hinv j hj).mpr hjb
            omega)
      have hslot : specSlot bas (fun q => mat q 0) (b + p) = (bas.get ⟨b, hb'⟩).value := by
        unfold specSlot
        rw [hfind]
      have hinv' : ∀ j (hj : j < bas.length),
          ((bas.get ⟨j, hj⟩).index < (b + 1) + p ↔ j < b + 1) := by
        intro j hj
        constructor
        · intro hlt'
          by_contra hc
          have hbj : b < j := by omega
          have hm := hmono b j hb' hj hbj
          omega
        · intro hj'
          rcases Nat.lt_succ_iff_lt_or_eq.mp hj' with hjb | hjb
          · have := (hinv j hj).mpr hjb
            omega
          · have hidx' : (bas.get ⟨j, hj⟩).index = b + p := by
              cases hjb
              exact hidx
            omega
      have hrange' : ∀ j (hj : j < bas.length),
          (bas.get ⟨j, hj⟩).index < (b + 1) + p + n := by
        intro j hj
        have := hrange j hj
        omega
      rw [ih (b + 1) p (args ++ [(bas.get ⟨b, hb'⟩).value]) reads hb' hinv' hrange']
      simp only [Prod.mk.injEq]
      constructor
      · have hmap : (List.range (n + 1)).map
              (fun k => specSlot bas (fun q => mat q 0) (b + p + k)) =
            (bas.get ⟨b, hb'⟩).value ::
              (List.range n).map (fun k => specSlot bas (fun q => mat q 0) ((b + 1) + p + k)) := by
          rw [List.range_succ_eq_map]
          simp only [List.map_cons, List.map_map]
          refine List.cons_eq_cons.mpr ⟨hslot, ?_⟩
          apply List.map_congr_left
          intro k _
          show specSlot bas (fun q => mat q 0) (b + p + (k + 1)) =
            specSlot bas (fun q => mat q 0) ((b + 1) + p + k)
          have harith : b + p + (k + 1) = (b + 1) + p + k := by omega
          rw [harith]
        rw [hmap, List.append_assoc]
        rfl
      · have hsub : n + 1 - (bas.length - b) = n - (bas.length - (b + 1)) := by omega
        rw [hsub]
    · -- parameter step
      rw [if_neg h]
      have hgt : ∀ j (hj : j < bas.length), b ≤ j → b + p < (bas.get ⟨j, hj⟩).index := by
        intro j hj hbj
        have hb2 : b < bas.length := Nat.lt_of_le_of_lt hbj hj
        have hbgt : b + p < (bas.get ⟨b, hb2⟩).index := by
          have hge : ¬ (bas.get ⟨b, hb2⟩).index < b + p := by
            intro hc
            exact absurd ((hinv b hb2).mp hc) (Nat.lt_irrefl b)
          have hne2 : (bas.get ⟨b, hb2⟩).index ≠ b + p :=
            fun hc => h ((useBoundArg_true_iff bas b p hb2).mpr hc)
          omega
        rcases Nat.eq_or_lt_of_le hbj with heq | hlt2
        · cases heq
          exact hbgt
        · have hm := hmono b j hb2 hj hlt2
          omega
      have hfind : bas.find? (fun a => a.index == b + p) = none := by
        apply find_index_none
        intro j hj
        by_cases hjb : j < b
        · have := (hinv j hj).mpr hjb
          omega
        · have := hgt j hj (Nat.le_of_not_lt hjb)
          omega
      have hcount : (bas.filter (fun a => a.index < b + p)).length = b := by
        apply filter_length_split _ _ _ hb
        · intro j hj hjb
          exact decide_eq_true ((hinv j hj).mpr hjb)
        · intro j hj hbj
          exact decide_eq_false (fun hc => absurd ((hinv j hj).mp hc) (by omega))
      have hslot : specSlot bas (fun q => mat q 0) (b + p) = mat p 0 := by
        unfold specSlot
        rw [hfind, hcount]
        have hbp : b + p - b = p := by omega
        show mat (b + p - b) 0 = mat p 0
        rw [hbp]
      have hlen : bas.length - b ≤ n := by
        by_cases hb2 : b < bas.length
        · have hJ : b + (bas.length - 1 - b) < bas.length := by omega
          have hgap := mono_index_gap bas hmono b (bas.length - 1 - b) hJ hb2
          have hr := hrange (b + (bas.length - 1 - b)) hJ
          have hbig := hgt b hb2 (Nat.le_refl b)
          omega
        · omega
      have hinv' : ∀ j (hj : j < bas.length),
          ((bas.get ⟨j, hj⟩).index < b + (p + 1) ↔ j < b) := by
        intro j hj
        constructor
        · intro hlt'
          by_contra hc
          have := hgt j hj (Nat.le_of_not_lt hc)
          omega
        · intro hjb
          have := (hinv j hj).mpr hjb
          omega
      have hrange' : ∀ j (hj : j < bas.length),
          (bas.get ⟨j, hj⟩).index < b + (p + 1) + n := by
        intro j hj
        have := hrange j hj
        omega
      rw [ih b (p + 1) (args ++ [mat p 0]) (reads ++ [(p, 0)]) hb hinv' hrange']
      simp only [Prod.mk.injEq]
      constructor
      · have hmap : (List.range (n + 1)).map
              (fun k => specSlot bas (fun q => mat q 0) (b + p + k)) =
            mat p 0 ::
              (List.range n).map (fun k => specSlot bas (fun q => mat q 0) (b + (p + 1) + k)) := by
          rw [List.range_succ_eq_map]
          simp only [List.map_cons, List.map_map]
          refine List.cons_eq_cons.mpr ⟨hslot, ?_⟩
          apply List.map_congr_left
          intro k _
          show specSlot bas (fun q => mat q 0) (b + p + (k + 1)) =
            specSlot bas (fun q => mat q 0) (b + (p + 1) + k)
          have harith : b + p + (k + 1) = b + (p + 1) + k := by omega
          rw [harith]
        rw [hmap, List.append_assoc]
        rfl
      · have hsub : n + 1 - (bas.length - b) = (n - (bas.length - b)) + 1 := by omega
        have hmapr : (List.range ((n - (bas.length - b)) + 1)).map
              (fun j => ((p + j, 0) : Nat × Nat)) =
            ((p, 0) : Nat × Nat) ::
              (List.range (n - (bas.length - b))).map (fun j => (p + 1 + j, 0)) := by
          rw [List.range_succ_eq_map]
          simp only [List.map_cons, List.map_map]
          refine List.cons_eq_cons.mpr ⟨rfl, ?_⟩
          apply List.map_congr_left
          intro j _
          show ((p + (j + 1), 0) : Nat × Nat) = (p + 1 + j, 0)
          have harith : p + (j + 1) = p + 1 + j := by omega
          rw [harith]
        rw [hsub, hmapr, List.append_assoc]
        rfl

/-- For a valid bound-argument set, one `Evaluate` call assembles exactly
`specSlot` of every slot `0, ..., TotalArgs - 1`, and reads the parameter
matrix exactly at `(0, 0), (1, 0), ..., (TotalArgs - boundArgs.length - 1, 0)`. -/
theorem assembled_characterization {α : Type} [Inhabited α] (TotalArgs : Nat)
    (bas : List (BoundArg α)) (mat : Nat → Nat → α)
    (hv : ValidBoundArgs TotalArgs bas) :
    assembledArgs TotalArgs bas mat =
      (List.range TotalArgs).map (fun k => specSlot bas (fun q => mat q 0) k) ∧
    paramReads TotalArgs bas mat =
      (List.range (TotalArgs - bas.length)).map (fun j => (j, 0)) := by
  have hm := valid_mono bas hv.1
  have hinv0 : ∀ j (hj : j < bas.length), ((bas.get ⟨j, hj⟩).index < 0 + 0 ↔ j < 0) := by
    intro j hj
    constructor
    · intro hc
      exact absurd hc (by omega)
    · intro hc
      exact absurd hc (Nat.not_lt_zero j)
  have hrange0 : ∀ j (hj : j < bas.length), (bas.get ⟨j, hj⟩).index < 0 + 0 + TotalArgs := by
    intro j hj
    have := hv.2 _ (List.get_mem bas j hj)
    omega
  have h := putArgsAux_eq bas mat hm TotalArgs 0 0 [] [] (Nat.zero_le _) hinv0 hrange0
  constructor
  · have h1 : assembledArgs TotalArgs bas mat =
        (List.range TotalArgs).map (fun k => specSlot bas (fun q => mat q 0) (0 + 0 + k)) := by
      show (putArgsAux bas mat TotalArgs 0 0 [] []).1 = _
      rw [h]
      rfl
    rw [h1]
    apply List.map_congr_left
    intro k _
    have h0 : 0 + 0 + k = k := by omega
    rw [h0]
  · have h2 : paramReads TotalArgs bas mat =
        (List.range (TotalArgs - (bas.length - 0))).map (fun j => ((0 + j, 0) : Nat × Nat)) := by
      show (putArgsAux bas mat TotalArgs 0 0 [] []).2 = _
      rw [h]
      rfl
    rw [h2]
    have h3 : bas.length - 0 = bas.length := by omega
    rw [h3]
    apply List.map_congr_left
    intro j _
    have h0 : 0 + j = j := by omega
    rw [h0]

/-- C1: for every `TotalArgs`, every valid bound-argument set and every
parameter matrix, the assembled argument list has length exactly `TotalArgs`;
slot `a.index` holds the bound value `a.value` for every bound argument `a`;
and every non-bound slot `i` holds the parameter-vector entry (column 0 of the
matrix) at `i`'s rank among the non-bound slots, preserving the relative
order of both sources. -/
theorem c1_assembled_argument_list {α : Type} [Inhabited α] (TotalArgs : Nat)
    (bas : List (BoundArg α)) (mat : Nat → Nat → α)
    (hv : ValidBoundArgs TotalArgs bas) :
    (assembledArgs TotalArgs bas mat).length = TotalArgs ∧
    (∀ a ∈ bas, (assembledArgs TotalArgs bas mat).getD a.index default = a.value) ∧
    (∀ i, i < TotalArgs → (∀ a ∈ bas, a.index ≠ i) →
      (assembledArgs TotalArgs bas mat).getD i default =
        mat (i - (bas.filter (fun a => a.index < i)).length) 0) := by
  obtain ⟨hA, _⟩ := assembled_characterization TotalArgs bas mat hv
  refine ⟨?_, ?_, ?_⟩
  · rw [hA]
    simp
  · intro a ha
    obtain ⟨⟨j, hj⟩, rfl⟩ := List.mem_iff_get.mp ha
    have hi : (bas.get ⟨j, hj⟩).index < TotalArgs := hv.2 _ (List.get_mem bas j hj)
    rw [hA, getD_map_range _ _ _ hi]
    have hfind : bas.find? (fun x => x.index == (bas.get ⟨j, hj⟩).index) =
        some (bas.get ⟨j, hj⟩) :=
      find_at_pos bas _ j hj rfl
        (fun j' hj' hj'j => by
          have := valid_mono bas hv.1 j' j hj' hj hj'j
          omega)
    unfold specSlot
    rw [hfind]
  · intro i hi hnb
    rw [hA, getD_map_range _ _ _ hi]
    have hfind : bas.find? (fun a => a.index == i) = none := by
      apply find_index_none
      intro j hj
      exact hnb _ (List.get_mem bas j hj)
    unfold specSlot
    rw [hfind]

/-- Witness for C1 on the spec's scenario: `TotalArgs = 3`, bound values 100
at slot 0 and 200 at slot 2, parameter column `1, 11, 21, ...`; the assembled
list is `[100, 1, 200]`. -/
theorem c1_witness :
    ValidBoundArgs 3 [⟨0, (100 : Nat)⟩, ⟨2, 200⟩] ∧
    (assembledArgs 3 [⟨0, (100 : Nat)⟩, ⟨2, 200⟩] (fun r c => 10 * r + c + 1)).length = 3 ∧
    (assembledArgs 3 [⟨0, (100 : Nat)⟩, ⟨2, 200⟩] (fun r c => 10 * r + c + 1)).getD 0
      default = 100 ∧
    (assembledArgs 3 [⟨0, (100 : Nat)⟩, ⟨2, 200⟩] (fun r c => 10 * r + c + 1)).getD 1
      default = 1 ∧
    (assembledArgs 3 [⟨0, (100 : Nat)⟩, ⟨2, 200⟩] (fun r c => 10 * r + c + 1)).getD 2
      default = 200 := by
  have hv : ValidBoundArgs 3 [⟨0, (100 : Nat)⟩, ⟨2, 200⟩] := by decide
  have h := c1_assembled_argument_list 3 [⟨0, (100 : Nat)⟩, ⟨2, 200⟩]
    (fun r c => 10 * r + c + 1) hv
  refine ⟨hv, h.1, ?_, ?_, ?_⟩
  · exact h.2.1 ⟨0, 100⟩ (by decide)
  · exact h.2.2 1 (by decide) (by decide)
  · exact h.2.1 ⟨2, 200⟩ (by decide)

/-- Counterexample to C7 as stated: the bound-argument set with original
indices `2, 1` (not strictly increasing) is invalid, yet nothing detects the
violation: assembly still completes, producing a full 3-slot argument list in
which the bound value 20 is silently dropped — the misaligned list
`[p0, p1, 10]` simply reaches the cross-validation routine. -/
theorem c7_counterexample :
    ¬ ValidBoundArgs 3 [⟨2, (10 : Nat)⟩, ⟨1, 20⟩] ∧
    assembledArgs 3 [⟨2, (10 : Nat)⟩, ⟨1, 20⟩] (fun _ _ => 0) = [0, 0, 10] ∧
    (20 : Nat) ∉ assembledArgs 3 [⟨2, (10 : Nat)⟩, ⟨1, 20⟩] (fun _ _ => 0) ∧
    (assembledArgs 3 [⟨2, (10 : Nat)⟩, ⟨1, 20⟩] (fun _ _ => 0)).length = 3 :=
  ⟨by decide, by decide, by decide, by decide⟩

/-- C7 (amended): no construction-time detection exists: the constructor
performs no validation, and for every bound-argument configuration — valid or
not — evaluation completes and assembles an argument list of exactly
`TotalArgs` entries; an out-of-order or out-of-range index set is silently
tolerated, surfacing only as a misaligned argument list (see the
counterexample). -/
theorem c7_invalid_config_silently_tolerated {α : Type} [Inhabited α] (TotalArgs : Nat)
    (bas : List (BoundArg α)) (mat : Nat → Nat → α) :
    (assembledArgs TotalArgs bas mat).length = TotalArgs := by
  show (putArgsAux bas mat TotalArgs 0 0 [] []).1.length = TotalArgs
  rw [putArgsAux_fst_length bas mat TotalArgs 0 0 [] []]
  simp

/-- C10: for every valid configuration, the parameter matrix is read exactly
at `(0, 0), (1, 0), ..., (k - 1, 0)` where `k = TotalArgs - boundArgs.length`
is the number of non-bound slots — each row of column 0 exactly once, in
strictly increasing row order, never any other column — and matrices agreeing
on column 0 yield the same assembled argument list and the same `Evaluate`
outcome (score and state). -/
theorem c10_column_zero_reads {α M ε : Type} [Inhabited α] (TotalArgs : Nat)
    (bas : List (BoundArg α)) (mat : Nat → Nat → α)
    (hv : ValidBoundArgs TotalArgs bas) :
    paramReads TotalArgs bas mat =
      (List.range (TotalArgs - bas.length)).map (fun j => (j, 0)) ∧
    (∀ mat' : Nat → Nat → α, (∀ r, mat r 0 = mat' r 0) →
      assembledArgs TotalArgs bas mat = assembledArgs TotalArgs bas mat') ∧
    ∀ (st : CVFunctionState α M) (cvEval : List α → Except ε (ℚ × M))
      (mat' : Nat → Nat → α), st.boundArgs = bas → (∀ r, mat r 0 = mat' r 0) →
      Evaluate cvEval TotalArgs mat st = Evaluate cvEval TotalArgs mat' st := by
  have hAB : ∀ mat' : Nat → Nat → α, (∀ r, mat r 0 = mat' r 0) →
      assembledArgs TotalArgs bas mat = assembledArgs TotalArgs bas mat' := by
    intro mat' hcol
    rw [(assembled_characterization TotalArgs bas mat hv).1,
      (assembled_characterization TotalArgs bas mat' hv).1]
    apply List.map_congr_left
    intro k _
    exact congrArg (fun f => specSlot bas f k) (funext hcol)
  refine ⟨(assembled_characterization TotalArgs bas mat hv).2, hAB, ?_⟩
  intro st cvEval mat' hst hcol
  unfold Evaluate
  rw [hst, hAB mat' hcol]

/-- Witness for C10 on a concrete configuration and a concrete pair of
matrices agreeing on column 0. -/
theorem c10_witness :
    ValidBoundArgs 3 [⟨1, (5 : Nat)⟩] ∧
    paramReads 3 [⟨1, (5 : Nat)⟩] (fun r c => r + c) = [(0, 0), (1, 0)] ∧
    assembledArgs 3 [⟨1, (5 : Nat)⟩] (fun r c => r + c) =
      assembledArgs 3 [⟨1, (5 : Nat)⟩] (fun r c => r + 2 * c) ∧
    Evaluate (fun l => Except.ok ((6 : ℚ), l.length) : List Nat → Except Unit (ℚ × Nat)) 3
        (fun r c => r + c) (mkCVFunction [⟨1, (5 : Nat)⟩]) =
      Evaluate (fun l => Except.ok ((6 : ℚ), l.length)) 3
        (fun r c => r + 2 * c) (mkCVFunction [⟨1, (5 : Nat)⟩]) := by
  have hv : ValidBoundArgs 3 [⟨1, (5 : Nat)⟩] := by decide
  have h := @c10_column_zero_reads Nat Nat Unit _ 3 [⟨1, (5 : Nat)⟩] (fun r c => r + c) hv
  exact ⟨hv, h.1.trans (by decide), h.2.1 (fun r c => r + 2 * c) (fun r => rfl),
    h.2.2 (mkCVFunction [⟨1, (5 : Nat)⟩]) (fun l => Except.ok ((6 : ℚ), l.length))
      (fun r c => r + 2 * c) rfl (fun r => rfl)⟩
